import Mathlib

namespace Pynab

/-!
Verification development for the pynab binary-to-release finalization
pipeline (`pynab/releases.py`) and the scan orchestrator (`start.py`).

The Python source is shallowly embedded: pure functions become Lean
functions, the per-binary decision loop becomes an explicit state-passing
step function, and SQL queries become list computations over table rows.
External collaborators (the `regex` library, `pynab.categories`,
`pynab.nzbs`, `pynab.rars`, `pynab.nfos`, `pynab.sfvs`, and the `config`
module, none of which are part of the sources) are abstracted as function
and value parameters, following the collaborator contracts in the design
document.
-/

/-! ## clean_release_name (releases.py lines 110-116) -/

/-- The fixed list of punctuation characters stripped by
`clean_release_name` (the `chars` list in the Python source). -/
def stripChars : List Char := ['#', '@', '$', '%', '^', '§', '¨', '©', 'Ö']

/-- Python `name.replace(c, '')` for a single character: drop every
occurrence of `a`. -/
def removeChar (a : Char) (s : List Char) : List Char :=
  s.filter (fun c => c != a)

/-- Python `name.replace(a, b)` for single characters: substitute every
occurrence of `a` by `b`. -/
def replaceChar (a b : Char) (s : List Char) : List Char :=
  s.map (fun c => if c = a then b else c)

/-- `clean_release_name` on character lists: strip each character of
`stripChars` in order, then replace underscores, dots and hyphens with
spaces — exactly the sequence of `str.replace` calls in the source. -/
def cleanReleaseList (s : List Char) : List Char :=
  replaceChar '-' ' ' (replaceChar '.' ' '
    (replaceChar '_' ' ' (stripChars.foldl (fun acc c => removeChar c acc) s)))

/-- `clean_release_name` from releases.py: strip dirty characters out of
release names. -/
def clean_release_name (s : String) : String :=
  ⟨cleanReleaseList s.data⟩

/-! ## discover_name (releases.py lines 17-107)

The category classifier `pynab.categories.determine_category` and the
constant `pynab.categories.CAT_PARENT_MISC`, together with the auxiliary
name parsers (`pynab.rars`, `pynab.nfos`, `pynab.sfvs`), live in modules
that are not part of the sources; per the design document they are
external collaborators (`classify` and `parse_auxiliary_name`). They are
abstracted as fields of `NameCtx`. -/

/-- One file entry of a release, as used by `names_from_files`. -/
structure RelFile where
  name : String

/-- The slice of a Release that `discover_name` reads. `nfo` and `sfv`
are optional references to auxiliary blobs (Python truthiness on the
attribute). -/
structure NRelease where
  id : Nat
  search_name : String
  category_id : Nat
  files : List RelFile
  nfo : Option Nat
  sfv : Option Nat

/-- External collaborators of `discover_name`, abstracted.
`determine_category` is the single-argument call used in
`discover_name`; `cat_parent_misc` is `pynab.categories.CAT_PARENT_MISC`
(the designated miscellaneous parent bucket). `nfoGet`/`sfvGet` model
`pynab.nfos.get(..).decode(..)` (empty string when the blob is absent or
empty, i.e. falsy). -/
structure NameCtx where
  rarParse : String → Option String
  nfoGet : Nat → String
  nfoParse : String → List String
  sfvGet : Nat → String
  sfvParse : String → List String
  determine_category : String → Nat
  cat_parent_misc : Nat

/-- `names_from_files`: parse each file name with
`pynab.rars.attempt_parse` and keep the truthy results. -/
def names_from_files (d : NameCtx) (r : NRelease) : List String :=
  r.files.filterMap (fun f =>
    match d.rarParse f.name with
    | some n => if n ≠ "" then some n else none
    | none => none)

/-- `names_from_nfos`: fetch and decode the NFO blob; if it is truthy,
parse names out of it, else return the empty list. Takes the unwrapped
NFO reference (the caller guards on `release.nfo`). -/
def names_from_nfos (d : NameCtx) (nfoId : Nat) : List String :=
  let nfo := d.nfoGet nfoId
  if nfo ≠ "" then d.nfoParse nfo else []

/-- `names_from_sfvs`: same shape as `names_from_nfos` for the SFV
blob. -/
def names_from_sfvs (d : NameCtx) (sfvId : Nat) : List String :=
  let sfv := d.sfvGet sfvId
  if sfv ≠ "" then d.sfvParse sfv else []

/-- The parent bucket of a category id:
`math.floor(category / 1000) * 1000` in the source (category ids are
non-negative, so Python floor division is Nat division). -/
def parentCat (c : Nat) : Nat := c / 1000 * 1000

/-- The three return shapes of `discover_name`:
`(search_name, category_id)`, `(False, calculated_old_category)` and
`(None, None)`. -/
inductive DiscoverResult where
  | rename (name : String) (category : Nat)
  | keepOld (category : Nat)
  | noCandidates
deriving DecidableEq

/-- The candidate loop of `discover_name` (releases.py lines 62-101),
with `old` the declared category (`release.category_id`) and `calcOld`
the category recomputed from the release's current search name. -/
def discoverLoop (d : NameCtx) (old calcOld : Nat) :
    List String → DiscoverResult
  | [] => .noCandidates
  | name :: rest =>
    let newCat := d.determine_category name
    if parentCat calcOld = d.cat_parent_misc then
      if parentCat newCat = d.cat_parent_misc then
        discoverLoop d old calcOld rest
      else
        if parentCat newCat = parentCat old ∨
            parentCat old = d.cat_parent_misc then
          .rename name newCat
        else
          discoverLoop d old calcOld rest
    else
      .keepOld calcOld

/-- The candidate list gathered by `discover_name`: the current search
name, then file names, then NFO names, then SFV names; each auxiliary
source is consulted only when its attribute is truthy. -/
def potential_names (d : NameCtx) (r : NRelease) : List String :=
  [r.search_name]
    ++ (if r.files.isEmpty then [] else names_from_files d r)
    ++ (match r.nfo with
        | some n => names_from_nfos d n
        | none => [])
    ++ (match r.sfv with
        | some s => names_from_sfvs d s
        | none => [])

/-- `discover_name` from releases.py: attempts to fix a release name by
NFO, filelist or SFV. -/
def discover_name (d : NameCtx) (r : NRelease) : DiscoverResult :=
  let names := potential_names d r
  if 1 < names.length then
    discoverLoop d r.category_id (d.determine_category r.search_name) names
  else
    .noCandidates

/-- A candidate qualifies when its own category's parent bucket is not
miscellaneous and either matches the declared category's parent bucket
or the declared category's parent bucket is itself miscellaneous. -/
def qualifies (d : NameCtx) (old : Nat) (n : String) : Bool :=
  (parentCat (d.determine_category n) != d.cat_parent_misc) &&
    ((parentCat (d.determine_category n) == parentCat old) ||
      (parentCat old == d.cat_parent_misc))

/-- Concrete context for the name-resolution scenarios: `original`
recomputes to the miscellaneous bucket, `fileA` and `infoB` both
recompute to the declared parent bucket 2000. -/
def exNameCtx : NameCtx where
  rarParse := fun s => some s
  nfoGet := fun _ => "nfotext"
  nfoParse := fun _ => ["infoB"]
  sfvGet := fun _ => ""
  sfvParse := fun _ => []
  determine_category := fun n =>
    if n = "fileA" then 2010 else if n = "infoB" then 2020 else 8010
  cat_parent_misc := 8000

/-- Release carrying the candidate list `[original, fileA, infoB]` with
declared category 2045. -/
def exNRelease : NRelease where
  id := 7
  search_name := "original"
  category_id := 2045
  files := [⟨"fileA"⟩]
  nfo := some 0
  sfv := none

/-- Same candidates but a declared category whose recomputed-from-name
category is non-miscellaneous. -/
def exNReleaseFine : NRelease where
  id := 8
  search_name := "fileA"
  category_id := 2045
  files := [⟨"fileA"⟩]
  nfo := some 0
  sfv := none

/-! ## Completion selection query (releases.py lines 133-148)

The raw SQL in `process` is embedded as list computations over table
rows. The inner subquery joins `parts` with `segments` and groups by
part id, so a part appears only when it has at least one segment, and
its `available_segments` is its segment count. The outer query groups
the joined rows by binary and keeps binaries with
`count(*) >= binaries.total_parts` and
`(sum(available_segments) / sum(total_segments)) * 100 >= min_completion`.
The division is read as exact rational arithmetic, as the design
document does (the column declarations live in the `db` module, which is
not part of the sources). -/

/-- A row of the `segments` table (the join key only). -/
structure SegRow where
  id : Nat
  part_id : Nat

/-- A row of the `parts` table as read by the query. -/
structure PartRow where
  id : Nat
  binary_id : Nat
  total_segments : Nat

/-- A row of the `binaries` table as read by the query. -/
structure BinRow where
  id : Nat
  name : String
  posted : Int
  total_parts : Nat

/-- `count(*)` of segments joined to one part: the number of segment
rows whose `part_id` is the given part id. -/
def available_segments (segs : List SegRow) (pid : Nat) : Nat :=
  (segs.filter (fun s => s.part_id == pid)).length

/-- One row of the inner grouped subquery. -/
structure InnerRow where
  id : Nat
  binary_id : Nat
  total_segments : Nat
  available_segments : Nat

/-- The inner subquery: `parts INNER JOIN segments` grouped by part id.
A part with no segments produces no row. -/
def innerQuery (parts : List PartRow) (segs : List SegRow) :
    List InnerRow :=
  (parts.filter (fun p => available_segments segs p.id != 0)).map
    (fun p => ⟨p.id, p.binary_id, p.total_segments,
      available_segments segs p.id⟩)

/-- The outer query's group for one binary: the inner rows joined on
`binaries.id = parts.binary_id`. -/
def binaryGroup (parts : List PartRow) (segs : List SegRow)
    (b : BinRow) : List InnerRow :=
  (innerQuery parts segs).filter (fun row => row.binary_id == b.id)

/-- The `HAVING` clause of the selection query: the binary is returned
iff its group has at least `total_parts` rows and the aggregate segment
completion percentage reaches `min_completion`. -/
def selectedByQuery (minCompletion : ℚ) (parts : List PartRow)
    (segs : List SegRow) (b : BinRow) : Prop :=
  b.total_parts ≤ (binaryGroup parts segs b).length ∧
    ((((binaryGroup parts segs b).map InnerRow.available_segments).sum : ℚ) /
      (((binaryGroup parts segs b).map InnerRow.total_segments).sum : ℚ))
        * 100 ≥ minCompletion

/-- The binary's parts that have at least one present segment (the
parts the claim counts). -/
def presentParts (parts : List PartRow) (segs : List SegRow)
    (b : BinRow) : List PartRow :=
  (parts.filter (fun p => p.binary_id == b.id)).filter
    (fun p => decide (1 ≤ available_segments segs p.id))

/-- The claim's percentage condition: present segments over declared
segments, across the binary's parts having a present segment, times
100, at least the threshold. -/
def completionHolds (minCompletion : ℚ) (parts : List PartRow)
    (segs : List SegRow) (b : BinRow) : Prop :=
  ((((presentParts parts segs b).map
      (fun p => available_segments segs p.id)).sum : ℚ) /
    (((presentParts parts segs b).map PartRow.total_segments).sum : ℚ))
      * 100 ≥ minCompletion

/-- The claim's completeness definition exactly as stated: the count of
parts having a present segment EQUALS the declared total. -/
def claimCompleteEq (minCompletion : ℚ) (parts : List PartRow)
    (segs : List SegRow) (b : BinRow) : Prop :=
  (presentParts parts segs b).length = b.total_parts ∧
    completionHolds minCompletion parts segs b

/-- The amended completeness definition: the count of parts having a
present segment is AT LEAST the declared total. -/
def claimCompleteGe (minCompletion : ℚ) (parts : List PartRow)
    (segs : List SegRow) (b : BinRow) : Prop :=
  b.total_parts ≤ (presentParts parts segs b).length ∧
    completionHolds minCompletion parts segs b

/-- Parts table for the completion counterexample: two parts, both of
binary 1, one declared segment each. -/
def exParts : List PartRow := [⟨1, 1, 1⟩, ⟨2, 1, 1⟩]

/-- Segments table: one segment per part. -/
def exSegs : List SegRow := [⟨1, 1⟩, ⟨2, 2⟩]

/-- Binary declaring only one part while two parts with segments exist
for it. -/
def exBin : BinRow := ⟨1, "b", 0, 1⟩

/-! ## The per-binary finalization step (releases.py lines 157-277)

The body of the `for completed_binary in ...` loop in `process` becomes
an explicit step function on a pipeline state. External collaborators —
the `regex` library, the classifier, `pynab.nzbs.create` and its
pattern constants, and the `config.postprocess` values — are fields of
`PCtx`. The `db.commit()` calls delimit per-binary transactions; since
no failures are modelled, state passing captures their effect. Group and
Category row lookups (`one()`) are assumed to succeed; the Category row
passed to `pynab.nzbs.create` is determined by the category id. -/

/-- One part of a binary, as read by the archive-count gate. -/
structure BPart where
  id : Nat
  subject : String

/-- A binary as loaded by the pipeline. `size` models the
`Binary.size()` method. Modelled from the spec: `Binary.size()` is
defined in the `db` module, which is not part of the sources; the design
document describes it as the Binary's aggregate byte size. -/
structure Bin where
  id : Nat
  name : String
  posted : Int
  posted_by : String
  regex_id : Nat
  group_name : String
  size : Nat
  parts : List BPart

/-- A row of the `blacklists` table. -/
structure BRule where
  id : Nat
  group_name : String
  field : String
  regex : String
  status : Bool
deriving DecidableEq

/-- A release row as built by the pipeline. -/
structure Rel where
  name : String
  posted : Int
  posted_by : String
  regex_id : Nat
  grabs : Nat
  size : Nat
  search_name : String
  group_name : String
  category_id : Nat
  nzb : Nat

/-- External collaborators and configuration consumed by `process`.
`reSearch pat text` is the truthiness of `regex.search(pat, text)`;
`nzb_create` is `pynab.nzbs.create` (returns nothing on serialization
failure); `min_size` is the `config.postprocess` minimum-size mapping as
(size, group list) items; `rules` is the `blacklists` table. -/
structure PCtx where
  reSearch : String → String → Bool
  rar_part_regex : String
  rar_regex : String
  zip_regex : String
  metadata_regex : String
  min_size : List (Nat × List String)
  min_archives : Nat
  determine_category : String → String → Nat
  nzb_create : String → Nat → Bin → Option Nat
  rules : List BRule

/-- The blacklist pre-cache: `db.query(Blacklist).filter(
Blacklist.status==True).all()`, executed once per `process` run. -/
def loadBlacklists (rules : List BRule) : List BRule :=
  rules.filter (fun r => r.status)

/-- `getattr(binary, field)` for the string columns a blacklist rule can
select (unknown fields yield the empty string; in the source they would
raise). -/
def binaryField (b : Bin) (f : String) : String :=
  if f = "name" then b.name
  else if f = "group_name" then b.group_name
  else if f = "posted_by" then b.posted_by
  else ""

/-- One rule matches a binary when its group-name pattern matches the
binary's group name and its content pattern matches the selected field,
where the `subject` selector is read as the binary's `name` (the loop
body at releases.py lines 184-187). -/
def ruleMatches (reS : String → String → Bool) (b : Bin)
    (r : BRule) : Bool :=
  reS r.group_name b.group_name &&
    reS r.regex (binaryField b (if r.field = "subject" then "name"
      else r.field))

/-- The duplicate check: does a release with the binary's name and
posted timestamp already exist? -/
def isDuplicate (releases : List Rel) (b : Bin) : Bool :=
  releases.any (fun r => r.name == b.name && r.posted == b.posted)

/-- The size gate: some configured (minimum size, group list) item
contains the binary's group and the binary's size is below the
minimum. -/
def undersized (minSize : List (Nat × List String)) (b : Bin) : Bool :=
  minSize.any (fun e => e.2.contains b.group_name && decide (b.size < e.1))

/-- Parts whose subject matches the multi-volume archive-part pattern. -/
def rarPartCount (ctx : PCtx) (b : Bin) : Nat :=
  (b.parts.filter (fun p => ctx.reSearch ctx.rar_part_regex p.subject)).length

/-- Parts whose subject matches the compressed-archive pattern without
matching the metadata pattern. (The analogous `rars` list built from
`rar_regex` feeds only a debug log line.) -/
def zipCount (ctx : PCtx) (b : Bin) : Nat :=
  (b.parts.filter (fun p => ctx.reSearch ctx.zip_regex p.subject &&
    !ctx.reSearch ctx.metadata_regex p.subject)).length

/-- Delete a binary row (cascading, in the source, to its parts and
segments). -/
def removeBin (bins : List Bin) (b : Bin) : List Bin :=
  bins.filter (fun x => x.id != b.id)

/-- The release built for a binary that passed every gate, with the
assigned search name, group, category and nzb reference. -/
def mkRelease (ctx : PCtx) (b : Bin) (nzbv : Nat) : Rel where
  name := b.name
  posted := b.posted
  posted_by := b.posted_by
  regex_id := b.regex_id
  grabs := 0
  size := b.size
  search_name := clean_release_name b.name
  group_name := b.group_name
  category_id := ctx.determine_category b.name b.group_name
  nzb := nzbv

/-- Pipeline state: the `releases` and `binaries` tables and the two
counters of `process`. -/
structure PState where
  releases : List Rel
  binaries : List Bin
  binary_count : Nat
  added_count : Nat

/-- The terminal outcome of one loop iteration. -/
inductive Outcome where
  | duplicate
  | blacklisted (rule : BRule)
  | undersized
  | fewArchives
  | nzbFailed
  | published
deriving DecidableEq

/-- One iteration of the `process` loop for one completed binary, with
`bls` the pre-cached blacklist rules. -/
def processBinary (ctx : PCtx) (bls : List BRule) (s : PState)
    (b : Bin) : PState × Outcome :=
  if isDuplicate s.releases b then
    ({ s with binaries := removeBin s.binaries b }, .duplicate)
  else
    match bls.find? (ruleMatches ctx.reSearch b) with
    | some r => ({ s with binaries := removeBin s.binaries b },
        .blacklisted r)
    | none =>
      let s1 : PState := { s with binary_count := s.binary_count + 1 }
      if undersized ctx.min_size b then
        ({ s1 with binaries := removeBin s1.binaries b }, .undersized)
      else if rarPartCount ctx b + zipCount ctx b < ctx.min_archives then
        ({ s1 with binaries := removeBin s1.binaries b }, .fewArchives)
      else
        match ctx.nzb_create (clean_release_name b.name)
            (ctx.determine_category b.name b.group_name) b with
        | none => (s1, .nzbFailed)
        | some nzbv =>
          ({ s1 with
              releases := s1.releases ++ [mkRelease ctx b nzbv],
              binaries := removeBin s1.binaries b,
              added_count := s1.added_count + 1 }, .published)

/-- The `process` loop over the binaries returned by the selection
query, in query order. -/
def processRun (ctx : PCtx) (bls : List BRule) :
    PState → List Bin → PState
  | s, [] => s
  | s, b :: rest => processRun ctx bls (processBinary ctx bls s b).1 rest

/-- `process` from releases.py: load the blacklist once, then run the
per-binary loop. -/
def process (ctx : PCtx) (s : PState) (bins : List Bin) : PState :=
  processRun ctx (loadBlacklists ctx.rules) s bins

/-- The de-duplication invariant: no two releases share the same
(name, posted) pair. -/
def uniqueReleases (rs : List Rel) : Prop :=
  rs.Pairwise (fun r1 r2 => ¬ (r1.name = r2.name ∧ r1.posted = r2.posted))

/-- Pipeline context with every gate permissive and a failing
serializer, for concrete scenarios. -/
def exPCtx : PCtx where
  reSearch := fun _ _ => false
  rar_part_regex := ""
  rar_regex := ""
  zip_regex := ""
  metadata_regex := ""
  min_size := []
  min_archives := 0
  determine_category := fun _ _ => 2000
  nzb_create := fun _ _ _ => none
  rules := []

/-- A concrete binary for the scenarios. -/
def exBin2 : Bin where
  id := 1
  name := "Some.Release-GRP"
  posted := 1000
  posted_by := "poster"
  regex_id := 0
  group_name := "alt.binaries.test"
  size := 100
  parts := []

/-- Empty initial pipeline state holding only `exBin2`. -/
def exPState : PState where
  releases := []
  binaries := [exBin2]
  binary_count := 0
  added_count := 0

/-- Context whose size mapping demands 500 for the test group. -/
def exPCtxMinSize : PCtx where
  reSearch := fun _ _ => false
  rar_part_regex := ""
  rar_regex := ""
  zip_regex := ""
  metadata_regex := ""
  min_size := [(500, ["alt.binaries.test"])]
  min_archives := 0
  determine_category := fun _ _ => 2000
  nzb_create := fun _ _ _ => none
  rules := []

/-! ## Dead-binary eviction (start.py lines 95-98) -/

/-- Timestamps carry microsecond resolution
(`datetime.timedelta(days=n)` is exact to the microsecond). -/
def microsecondsPerDay : Int := 86400000000

/-- `dead_time = now - timedelta(days=age)`. -/
def deadCutoff (now : Int) (age : Nat) : Int :=
  now - age * microsecondsPerDay

/-- The eviction pass of the orchestrator cycle: when the configured
`dead_binary_age` is non-zero, delete every binary with
`posted <= dead_time` (the surviving table is the filter's
complement). -/
def evictDead (age : Nat) (now : Int) (bins : List Bin) : List Bin :=
  if age ≠ 0 then
    bins.filter (fun b => !decide (b.posted ≤ deadCutoff now age))
  else
    bins

/-- Boundary binary: posted exactly at `now - 3 days`. -/
def exBinBoundary : Bin where
  id := 2
  name := "boundary"
  posted := 0
  posted_by := "poster"
  regex_id := 0
  group_name := "alt.binaries.test"
  size := 100
  parts := []

theorem mem_removeChar {c a : Char} {s : List Char} :
    c ∈ removeChar a s ↔ c ∈ s ∧ c ≠ a := by
  simp [removeChar, List.mem_filter, bne_iff_ne]

theorem mem_replaceChar {c a b : Char} {s : List Char}
    (h : c ∈ replaceChar a b s) : c = b ∨ (c ∈ s ∧ c ≠ a) := by
  simp only [replaceChar, List.mem_map] at h
  obtain ⟨x, hx, hxc⟩ := h
  by_cases hxa : x = a
  · left
    simp only [hxa, if_pos rfl] at hxc
    exact hxc.symm
  · right
    simp only [if_neg hxa] at hxc
    subst hxc
    exact ⟨hx, hxa⟩

theorem removeChar_of_not_mem {a : Char} {s : List Char}
    (h : ∀ c ∈ s, c ≠ a) : removeChar a s = s := by
  simp only [removeChar]
  exact List.filter_eq_self.mpr (fun c hc => by simpa [bne_iff_ne] using h c hc)

theorem replaceChar_of_not_mem {a b : Char} {s : List Char}
    (h : ∀ c ∈ s, c ≠ a) : replaceChar a b s = s := by
  induction s with
  | nil => rfl
  | cons x xs ih =>
    simp only [replaceChar, List.map_cons]
    rw [if_neg (h x (by simp))]
    have := ih (fun c hc => h c (by simp [hc]))
    simp only [replaceChar] at this
    rw [this]

/-- Every character of the strip-fold output is a character of the input
that is distinct from every stripped character already folded over. -/
theorem mem_stripFold {c : Char} {cs s : List Char}
    (h : c ∈ cs.foldl (fun acc x => removeChar x acc) s) :
    c ∈ s ∧ ∀ x ∈ cs, c ≠ x := by
  induction cs generalizing s with
  | nil => simpa using h
  | cons x xs ih =>
    simp only [List.foldl_cons] at h
    obtain ⟨hmem, hall⟩ := ih h
    rw [mem_removeChar] at hmem
    exact ⟨hmem.1, by
      intro y hy
      rcases List.mem_cons.mp hy with rfl | hy'
      · exact hmem.2
      · exact hall y hy'⟩

theorem stripFold_of_not_mem {cs s : List Char}
    (h : ∀ c ∈ s, ∀ x ∈ cs, c ≠ x) :
    cs.foldl (fun acc x => removeChar x acc) s = s := by
  induction cs generalizing s with
  | nil => rfl
  | cons x xs ih =>
    simp only [List.foldl_cons]
    rw [removeChar_of_not_mem (fun c hc => h c hc x (by simp))]
    exact ih (fun c hc y hy => h c hc y (by simp [hy]))

/-- Characterisation of the characters of `cleanReleaseList`: each one is
either a space or an input character that is none of the stripped
punctuation characters and not an underscore, dot or hyphen. -/
theorem mem_cleanReleaseList {c : Char} {s : List Char}
    (h : c ∈ cleanReleaseList s) :
    (c ∉ stripChars ∧ c ≠ '_' ∧ c ≠ '.' ∧ c ≠ '-') := by
  unfold cleanReleaseList at h
  rcases mem_replaceChar h with rfl | ⟨h2, hdash⟩
  · decide
  rcases mem_replaceChar h2 with rfl | ⟨h3, hdot⟩
  · decide
  rcases mem_replaceChar h3 with rfl | ⟨h4, hund⟩
  · decide
  obtain ⟨_, hstrip⟩ := mem_stripFold h4
  exact ⟨fun hc => hstrip c hc rfl, hund, hdot, hdash⟩

/-- A list already free of all the stripped and replaced characters is a
fixed point of `cleanReleaseList`. -/
theorem cleanReleaseList_of_clean {t : List Char}
    (h : ∀ c ∈ t, c ∉ stripChars ∧ c ≠ '_' ∧ c ≠ '.' ∧ c ≠ '-') :
    cleanReleaseList t = t := by
  unfold cleanReleaseList
  rw [stripFold_of_not_mem (by
    intro c hc x hx hcx
    exact (h c hc).1 (hcx ▸ hx))]
  rw [replaceChar_of_not_mem (fun c hc => (h c hc).2.1)]
  rw [replaceChar_of_not_mem (fun c hc => (h c hc).2.2.1)]
  rw [replaceChar_of_not_mem (fun c hc => (h c hc).2.2.2)]

theorem cleanReleaseList_idem (s : List Char) :
    cleanReleaseList (cleanReleaseList s) = cleanReleaseList s :=
  cleanReleaseList_of_clean (fun _ hc => mem_cleanReleaseList hc)

theorem discoverLoop_eq_find (d : NameCtx) (old calcOld : Nat)
    (hm : parentCat calcOld = d.cat_parent_misc) :
    ∀ names : List String,
      discoverLoop d old calcOld names =
        match names.find? (qualifies d old) with
        | some n => DiscoverResult.rename n (d.determine_category n)
        | none => DiscoverResult.noCandidates := by
  intro names
  induction names with
  | nil => rfl
  | cons n rest ih =>
    simp only [discoverLoop, if_pos hm]
    by_cases h1 : parentCat (d.determine_category n) = d.cat_parent_misc
    · rw [if_pos h1, List.find?_cons_of_neg _ (by simp [qualifies, h1])]
      exact ih
    · rw [if_neg h1]
      by_cases h2 : parentCat (d.determine_category n) = parentCat old ∨
          parentCat old = d.cat_parent_misc
      · rw [if_pos h2, List.find?_cons_of_pos _ (by
          simp only [qualifies, Bool.and_eq_true, bne_iff_ne, ne_eq,
            Bool.or_eq_true, beq_iff_eq]
          exact ⟨h1, h2⟩)]
      · rw [if_neg h2, List.find?_cons_of_neg _ (by
          simp only [qualifies, Bool.and_eq_true, bne_iff_ne, ne_eq,
            Bool.or_eq_true, beq_iff_eq, not_and]
          intro _
          exact h2)]
        exact ih

/-- **C7.** When the category recomputed from the original search name
falls in the miscellaneous parent bucket (and there is more than one
candidate), `discover_name` returns exactly the first candidate in
discovery order that qualifies — same parent bucket as the declared
category, or declared parent miscellaneous, and own parent not
miscellaneous — paired with that candidate's recomputed category; if no
candidate qualifies it signals no candidates. -/
theorem discover_name_first_qualifier (d : NameCtx) (r : NRelease)
    (hlen : 1 < (potential_names d r).length)
    (hm : parentCat (d.determine_category r.search_name) =
      d.cat_parent_misc) :
    discover_name d r =
      match (potential_names d r).find? (qualifies d r.category_id) with
      | some n => DiscoverResult.rename n (d.determine_category n)
      | none => DiscoverResult.noCandidates := by
  unfold discover_name
  rw [if_pos hlen]
  exact discoverLoop_eq_find d r.category_id _ hm _

theorem discover_name_first_qualifier_witness :
    1 < (potential_names exNameCtx exNRelease).length ∧
    parentCat (exNameCtx.determine_category exNRelease.search_name) =
      exNameCtx.cat_parent_misc ∧
    discover_name exNameCtx exNRelease =
      DiscoverResult.rename "fileA" 2010 := by
  refine ⟨by decide, by decide, ?_⟩
  rw [discover_name_first_qualifier exNameCtx exNRelease (by decide)
    (by decide)]
  decide

/-- **C8.** With at least two candidate names, if the category
recomputed from the original search name is not in the miscellaneous
parent bucket, `discover_name` returns the reject-rename flag paired
with that recomputed category immediately, whatever the remaining
candidates are. -/
theorem discover_name_keeps_old (d : NameCtx) (r : NRelease)
    (hlen : 1 < (potential_names d r).length)
    (hnm : parentCat (d.determine_category r.search_name) ≠
      d.cat_parent_misc) :
    discover_name d r =
      DiscoverResult.keepOld (d.determine_category r.search_name) := by
  unfold discover_name
  rw [if_pos hlen]
  obtain ⟨n, rest, heq⟩ :=
    List.exists_cons_of_ne_nil (List.ne_nil_of_length_pos
      (by omega) : potential_names d r ≠ [])
  rw [heq]
  simp only [discoverLoop, if_neg hnm]

theorem discover_name_keeps_old_witness :
    1 < (potential_names exNameCtx exNReleaseFine).length ∧
    parentCat (exNameCtx.determine_category exNReleaseFine.search_name) ≠
      exNameCtx.cat_parent_misc ∧
    discover_name exNameCtx exNReleaseFine = DiscoverResult.keepOld 2010 :=
  ⟨by decide, by decide,
    discover_name_keeps_old exNameCtx exNReleaseFine (by decide) (by decide)⟩

theorem discoverLoop_rename_sound (d : NameCtx) (old calcOld : Nat)
    {name : String} {cat : Nat} :
    ∀ names : List String,
      discoverLoop d old calcOld names = DiscoverResult.rename name cat →
      parentCat cat ≠ d.cat_parent_misc ∧
      (parentCat cat = parentCat old ∨
        parentCat old = d.cat_parent_misc) := by
  intro names
  induction names with
  | nil => intro h; exact absurd h (by simp [discoverLoop])
  | cons n rest ih =>
    intro h
    simp only [discoverLoop] at h
    by_cases hm : parentCat calcOld = d.cat_parent_misc
    · rw [if_pos hm] at h
      by_cases h1 : parentCat (d.determine_category n) = d.cat_parent_misc
      · rw [if_pos h1] at h
        exact ih h
      · rw [if_neg h1] at h
        by_cases h2 : parentCat (d.determine_category n) = parentCat old ∨
            parentCat old = d.cat_parent_misc
        · rw [if_pos h2] at h
          obtain ⟨rfl, rfl⟩ : name = n ∧ cat = d.determine_category n := by
            cases h
            exact ⟨rfl, rfl⟩
          exact ⟨h1, h2⟩
        · rw [if_neg h2] at h
          exact ih h
    · rw [if_neg hm] at h
      exact absurd h (by simp)

/-- **C10.** Whenever `discover_name` returns an actual candidate name
(not the reject flag nor the no-candidate signal), the category returned
with it has a non-miscellaneous parent bucket that matches the declared
category's parent bucket unless the declared parent bucket is itself
miscellaneous. -/
theorem discover_name_rename_sound (d : NameCtx) (r : NRelease)
    (name : String) (cat : Nat)
    (h : discover_name d r = DiscoverResult.rename name cat) :
    parentCat cat ≠ d.cat_parent_misc ∧
    (parentCat cat = parentCat r.category_id ∨
      parentCat r.category_id = d.cat_parent_misc) := by
  unfold discover_name at h
  by_cases hlen : 1 < (potential_names d r).length
  · rw [if_pos hlen] at h
    exact discoverLoop_rename_sound d r.category_id _ _ h
  · rw [if_neg hlen] at h
    exact absurd h (by simp)

theorem discover_name_rename_sound_witness :
    discover_name exNameCtx exNRelease =
      DiscoverResult.rename "fileA" 2010 ∧
    parentCat 2010 ≠ exNameCtx.cat_parent_misc ∧
    (parentCat 2010 = parentCat exNRelease.category_id ∨
      parentCat exNRelease.category_id = exNameCtx.cat_parent_misc) :=
  ⟨by decide,
    discover_name_rename_sound exNameCtx exNRelease "fileA" 2010 (by decide)⟩

theorem binaryGroup_eq (parts : List PartRow) (segs : List SegRow)
    (b : BinRow) :
    binaryGroup parts segs b = (presentParts parts segs b).map
      (fun p => ⟨p.id, p.binary_id, p.total_segments,
        available_segments segs p.id⟩) := by
  unfold binaryGroup innerQuery presentParts
  rw [List.filter_map, List.filter_filter, List.filter_filter]
  congr 1
  apply List.filter_congr
  intro p _
  rw [Bool.eq_iff_iff]
  simp only [Function.comp, Bool.and_eq_true, bne_iff_ne, ne_eq, beq_iff_eq,
    decide_eq_true_eq, Nat.one_le_iff_ne_zero]
  exact and_comm

/-- **C1 (amended).** The selection query returns a binary iff the
number of its parts having at least one present segment is at least
(not exactly) the declared `total_parts`, and the present-over-declared
segment percentage across those parts reaches the threshold. -/
theorem selectedByQuery_iff_claimGe (minCompletion : ℚ)
    (parts : List PartRow) (segs : List SegRow) (b : BinRow) :
    selectedByQuery minCompletion parts segs b ↔
      claimCompleteGe minCompletion parts segs b := by
  unfold selectedByQuery claimCompleteGe completionHolds
  rw [binaryGroup_eq, List.map_map, List.map_map, List.length_map]
  exact Iff.rfl

/-- **C1 counterexample.** At the default threshold 100, the query
selects a binary whose present-part count (2) strictly exceeds its
declared `total_parts` (1): the claim's "equals" reading excludes it,
so the claimed iff is false. -/
theorem selectedByQuery_not_iff_eq :
    selectedByQuery 100 exParts exSegs exBin ∧
    ¬ claimCompleteEq 100 exParts exSegs exBin := by
  constructor
  · constructor
    · decide
    · show ((2 : ℚ) / 2) * 100 ≥ 100
      norm_num
  · intro h
    exact absurd h.1 (by decide)

/-- **C9.** `clean_release_name` is idempotent, and its output contains
none of the stripped punctuation characters and no underscore, dot or
hyphen. -/
theorem clean_release_name_idem_and_clean (x : String) :
    clean_release_name (clean_release_name x) = clean_release_name x ∧
    ∀ c ∈ (clean_release_name x).data,
      c ∉ stripChars ∧ c ≠ '_' ∧ c ≠ '.' ∧ c ≠ '-' := by
  constructor
  · show (⟨cleanReleaseList (cleanReleaseList x.data)⟩ : String) =
      ⟨cleanReleaseList x.data⟩
    rw [cleanReleaseList_idem]
  · intro c hc
    exact mem_cleanReleaseList hc

theorem processBinary_releases_cases (ctx : PCtx) (bls : List BRule)
    (s : PState) (b : Bin) :
    (processBinary ctx bls s b).1.releases = s.releases ∨
    (isDuplicate s.releases b = false ∧ ∃ nzbv,
      (processBinary ctx bls s b).1.releases =
        s.releases ++ [mkRelease ctx b nzbv]) := by
  unfold processBinary
  by_cases hdup : isDuplicate s.releases b
  · left; rw [if_pos hdup]
  · rw [if_neg hdup]
    rcases hfind : bls.find? (ruleMatches ctx.reSearch b) with _ | r
    · by_cases hsz : undersized ctx.min_size b
      · left; simp [hsz]
      · by_cases har : rarPartCount ctx b + zipCount ctx b < ctx.min_archives
        · left; simp [hsz, har]
        · rcases hnzb : ctx.nzb_create (clean_release_name b.name)
              (ctx.determine_category b.name b.group_name) b with _ | n
          · left; simp [hsz, har, hnzb]
          · right
            refine ⟨by simpa using hdup, n, ?_⟩
            simp [hsz, har, hnzb]
    · left; rfl

theorem processBinary_preserves_unique (ctx : PCtx) (bls : List BRule)
    (s : PState) (b : Bin) (h : uniqueReleases s.releases) :
    uniqueReleases (processBinary ctx bls s b).1.releases := by
  rcases processBinary_releases_cases ctx bls s b with heq | ⟨hdup, n, heq⟩
  · rw [heq]; exact h
  · rw [heq]
    unfold uniqueReleases
    rw [List.pairwise_append]
    refine ⟨h, List.pairwise_singleton _ _, ?_⟩
    intro r hr r' hr'
    rw [List.mem_singleton] at hr'
    subst hr'
    simp only [isDuplicate, List.any_eq_false, Bool.and_eq_true,
      beq_iff_eq, not_and] at hdup
    intro hkey
    simp only [mkRelease] at hkey
    exact hdup r hr hkey.1 hkey.2

theorem processRun_preserves_unique (ctx : PCtx) (bls : List BRule) :
    ∀ (bins : List Bin) (s : PState), uniqueReleases s.releases →
      uniqueReleases (processRun ctx bls s bins).releases := by
  intro bins
  induction bins with
  | nil => intro s h; exact h
  | cons b rest ih =>
    intro s h
    exact ih _ (processBinary_preserves_unique ctx bls s b h)

/-- **C2.** If no two releases share the same (name, posted) pair before
a run, none do after the run; and a binary whose (name, posted) matches
an existing release is deleted with no release created, no published
count change, and a duplicate outcome. -/
theorem process_release_key_unique (ctx : PCtx) (s : PState)
    (bins : List Bin) (h : uniqueReleases s.releases) :
    uniqueReleases (process ctx s bins).releases ∧
    ∀ (bls : List BRule) (s' : PState) (b : Bin),
      isDuplicate s'.releases b = true →
      (processBinary ctx bls s' b).1.releases = s'.releases ∧
      (processBinary ctx bls s' b).1.added_count = s'.added_count ∧
      (processBinary ctx bls s' b).1.binaries = removeBin s'.binaries b ∧
      (processBinary ctx bls s' b).2 = Outcome.duplicate := by
  constructor
  · exact processRun_preserves_unique ctx _ bins s h
  · intro bls s' b hdup
    unfold processBinary
    rw [if_pos hdup]
    exact ⟨rfl, rfl, rfl, rfl⟩

theorem process_release_key_unique_witness :
    uniqueReleases exPState.releases ∧
    uniqueReleases (process exPCtx exPState [exBin2]).releases :=
  ⟨List.Pairwise.nil,
    (process_release_key_unique exPCtx exPState [exBin2]
      List.Pairwise.nil).1⟩

/-- **C3.** For a binary that reaches the serializer and the serializer
returns nothing, the step deletes nothing, persists no release, leaves
the published count unchanged (only the processed count advances), and
reports the serialization failure, so the binary remains a candidate. -/
theorem nzb_failure_preserves_binary (ctx : PCtx) (bls : List BRule)
    (s : PState) (b : Bin)
    (hdup : isDuplicate s.releases b = false)
    (hbl : bls.find? (ruleMatches ctx.reSearch b) = none)
    (hsz : undersized ctx.min_size b = false)
    (har : ¬ rarPartCount ctx b + zipCount ctx b < ctx.min_archives)
    (hnzb : ctx.nzb_create (clean_release_name b.name)
      (ctx.determine_category b.name b.group_name) b = none) :
    (processBinary ctx bls s b).1.releases = s.releases ∧
    (processBinary ctx bls s b).1.binaries = s.binaries ∧
    (processBinary ctx bls s b).1.added_count = s.added_count ∧
    (processBinary ctx bls s b).1.binary_count = s.binary_count + 1 ∧
    (processBinary ctx bls s b).2 = Outcome.nzbFailed := by
  simp [processBinary, hdup, hbl, hsz, hnzb, har]

theorem nzb_failure_preserves_binary_witness :
    isDuplicate exPState.releases exBin2 = false ∧
    (processBinary exPCtx [] exPState exBin2).1.binaries =
      exPState.binaries ∧
    (processBinary exPCtx [] exPState exBin2).1.added_count =
      exPState.added_count ∧
    (processBinary exPCtx [] exPState exBin2).2 = Outcome.nzbFailed := by
  have h := nzb_failure_preserves_binary exPCtx [] exPState exBin2
    (by decide) (by decide) (by decide) (by decide) (by decide)
  exact ⟨by decide, h.2.1, h.2.2.1, h.2.2.2.2⟩

theorem find?_eq_some_split {α : Type} (p : α → Bool) :
    ∀ (l : List α) (a : α), l.find? p = some a →
      ∃ pre post, l = pre ++ a :: post ∧ ∀ x ∈ pre, p x = false := by
  intro l
  induction l with
  | nil => intro a h; simp [List.find?] at h
  | cons x xs ih =>
    intro a h
    by_cases hx : p x = true
    · rw [List.find?_cons_of_pos _ hx] at h
      cases h
      exact ⟨[], xs, rfl, by simp⟩
    · rw [List.find?_cons_of_neg _ hx] at h
      obtain ⟨pre, post, heq, hpre⟩ := ih a h
      refine ⟨x :: pre, post, by rw [heq]; rfl, ?_⟩
      intro y hy
      rcases List.mem_cons.mp hy with rfl | hy'
      · simpa using hx
      · exact hpre y hy'

/-- **C4.** The blacklist check runs over the once-loaded enabled rules
in order: a found rule is enabled and is the first match (every earlier
loaded rule fails to match), the binary is then deleted with no release
created; with no matching rule the binary proceeds to release building
(the processed counter advances); and a rule selecting `subject` is
matched against the binary's name. -/
theorem blacklist_first_match (ctx : PCtx) (s : PState) (b : Bin)
    (hdup : isDuplicate s.releases b = false) :
    (∀ r : BRule,
      (loadBlacklists ctx.rules).find? (ruleMatches ctx.reSearch b) =
        some r →
      r.status = true ∧ ruleMatches ctx.reSearch b r = true ∧
      (∃ pre post, loadBlacklists ctx.rules = pre ++ r :: post ∧
        ∀ r' ∈ pre, ruleMatches ctx.reSearch b r' = false) ∧
      (processBinary ctx (loadBlacklists ctx.rules) s b).1.releases =
        s.releases ∧
      (processBinary ctx (loadBlacklists ctx.rules) s b).1.binaries =
        removeBin s.binaries b ∧
      (processBinary ctx (loadBlacklists ctx.rules) s b).2 =
        Outcome.blacklisted r) ∧
    ((loadBlacklists ctx.rules).find? (ruleMatches ctx.reSearch b) =
        none →
      (processBinary ctx (loadBlacklists ctx.rules) s b).1.binary_count =
        s.binary_count + 1) ∧
    (∀ r : BRule, r.field = "subject" →
      ruleMatches ctx.reSearch b r =
        (ctx.reSearch r.group_name b.group_name &&
          ctx.reSearch r.regex b.name)) := by
  refine ⟨?_, ?_, ?_⟩
  · intro r hfind
    have hmem : r ∈ loadBlacklists ctx.rules :=
      List.mem_of_find?_eq_some hfind
    have hstatus : r.status = true :=
      (List.mem_filter.mp hmem).2
    have hmatch : ruleMatches ctx.reSearch b r = true :=
      List.find?_some hfind
    refine ⟨hstatus, hmatch, find?_eq_some_split _ _ r hfind, ?_, ?_, ?_⟩
    · unfold processBinary
      rw [if_neg (by simp [hdup]), hfind]
    · unfold processBinary
      rw [if_neg (by simp [hdup]), hfind]
    · unfold processBinary
      rw [if_neg (by simp [hdup]), hfind]
  · intro hfind
    unfold processBinary
    rw [if_neg (by simp [hdup]), hfind]
    by_cases hsz : undersized ctx.min_size b
    · simp [hsz]
    · by_cases har : rarPartCount ctx b + zipCount ctx b < ctx.min_archives
      · simp [hsz, har]
      · rcases hnzb : ctx.nzb_create (clean_release_name b.name)
            (ctx.determine_category b.name b.group_name) b with _ | n
        · simp [hsz, har, hnzb]
        · simp [hsz, har, hnzb]
  · intro r hf
    unfold ruleMatches
    rw [if_pos hf]
    rfl

theorem blacklist_first_match_witness :
    isDuplicate exPState.releases exBin2 = false ∧
    ((loadBlacklists exPCtx.rules).find?
        (ruleMatches exPCtx.reSearch exBin2) = none →
      (processBinary exPCtx (loadBlacklists exPCtx.rules) exPState
        exBin2).1.binary_count = exPState.binary_count + 1) :=
  ⟨by decide,
    (blacklist_first_match exPCtx exPState exBin2 (by decide)).2.1⟩

/-- **C6 (amended).** A complete, non-duplicate, non-blacklisted binary
failing the size gate is deleted with zero releases created and the
published count unchanged, but the processed count advances by one (the
source increments `binary_count` before the size gate). -/
theorem undersized_deleted (ctx : PCtx) (bls : List BRule) (s : PState)
    (b : Bin)
    (hdup : isDuplicate s.releases b = false)
    (hbl : bls.find? (ruleMatches ctx.reSearch b) = none)
    (hsz : undersized ctx.min_size b = true) :
    (processBinary ctx bls s b).1.releases = s.releases ∧
    (processBinary ctx bls s b).1.binaries = removeBin s.binaries b ∧
    (processBinary ctx bls s b).1.added_count = s.added_count ∧
    (processBinary ctx bls s b).1.binary_count = s.binary_count + 1 ∧
    (processBinary ctx bls s b).2 = Outcome.undersized := by
  unfold processBinary
  rw [if_neg (by simp [hdup]), hbl, if_pos hsz]
  exact ⟨rfl, rfl, rfl, rfl, rfl⟩

/-- **C6 counterexample.** An undersized binary (size 100, minimum 500
for its group) is deleted with no release, but the processed count is
NOT unchanged: it advances from 0 to 1. -/
theorem undersized_increments_processed_count :
    undersized exPCtxMinSize.min_size exBin2 = true ∧
    (processBinary exPCtxMinSize [] exPState exBin2).1.releases = [] ∧
    (processBinary exPCtxMinSize [] exPState exBin2).1.added_count = 0 ∧
    ¬ (processBinary exPCtxMinSize [] exPState exBin2).1.binary_count =
      exPState.binary_count := by
  exact ⟨by decide, rfl, by decide, by decide⟩

theorem undersized_deleted_witness :
    isDuplicate exPState.releases exBin2 = false ∧
    undersized exPCtxMinSize.min_size exBin2 = true ∧
    (processBinary exPCtxMinSize [] exPState exBin2).1.binary_count =
      exPState.binary_count + 1 :=
  ⟨by decide, by decide,
    (undersized_deleted exPCtxMinSize [] exPState exBin2 (by decide)
      (by decide) (by decide)).2.2.2.1⟩

/-- **C5 (amended).** With a non-zero `dead_binary_age`, the eviction
pass removes exactly the binaries posted AT OR BEFORE now minus the age:
a binary survives iff it was posted strictly after the cutoff, so the
binary posted exactly at the boundary is evicted. -/
theorem evictDead_boundary (age : Nat) (now : Int) (bins : List Bin)
    (b : Bin) (h : age ≠ 0) :
    b ∈ evictDead age now bins ↔
      b ∈ bins ∧ deadCutoff now age < b.posted := by
  unfold evictDead
  rw [if_pos h]
  simp only [List.mem_filter, Bool.not_eq_eq_eq_not, Bool.not_true,
    decide_eq_false_iff_not, not_le]

/-- **C5 counterexample.** At `dead_binary_age = 3` and
`now = 3 days`, a binary posted exactly at the cutoff (`posted =
deadCutoff`) IS deleted by the code, contradicting the claim that the
boundary binary is not evicted. -/
theorem evictDead_boundary_evicted :
    exBinBoundary.posted = deadCutoff 259200000000 3 ∧
    evictDead 3 259200000000 [exBinBoundary] = [] := by
  constructor
  · decide
  · rfl

theorem evictDead_boundary_witness :
    (3 : Nat) ≠ 0 ∧
    (exBinBoundary ∈ evictDead 3 259200000000 [exBinBoundary] ↔
      exBinBoundary ∈ [exBinBoundary] ∧
        deadCutoff 259200000000 3 < exBinBoundary.posted) :=
  ⟨by decide,
    evictDead_boundary 3 259200000000 [exBinBoundary] exBinBoundary
      (by decide)⟩

end Pynab
